import Mathlib

/-!
Verification of the phytochempy compound-record compilation/deduplication
pipeline and diversity-metric engine, against its natural-language
specification.  The repository ships the pipeline as Python utilities
(`tidy_final_dataset`, `calculate_FAD_measures`,
`get_pathway_based_diversity_measures`, `get_npclassifier_classes_from_df`);
only their callers and documentation are in the available sources, so the
operations are modelled here from the specification and proved against that
model.
-/

/-- Modelled from the spec: the `CompoundTaxonRecord` data model of §3.
The Python implementation (a pandas dataframe row keyed by a compound ID
column and a taxon grouping column) is not among the available sources. -/
structure CompoundTaxonRecord where
  compound_identity : String
  raw_structure : String
  taxon_identity : String
  source_attributes : List (String × List String)
  source_tags : List String
deriving DecidableEq

/-- Modelled from the spec: a record with every field empty, used as a
default for merging an (impossible) empty bucket. -/
def emptyRecord : CompoundTaxonRecord :=
  { compound_identity := "", raw_structure := "", taxon_identity := "",
    source_attributes := [], source_tags := [] }

/-- Modelled from the spec: append a value to an ordered duplicate-free
list unless it is already present (§4.3 step 2, "ordered, duplicate-free
list"). -/
def insertNew (xs : List String) (v : String) : List String :=
  if v ∈ xs then xs else xs ++ [v]

/-- Modelled from the spec: merge two observed-value lists, keeping the
first-encountered order and never discarding a value (§4.3 step 2). -/
def mergeValues (xs ys : List String) : List String :=
  ys.foldl insertNew xs

/-- Attribute keys of a sparse `source_attributes` mapping. -/
def attrKeys (as : List (String × List String)) : List String :=
  as.map (fun p => p.1)

/-- Observed values of a sparse `source_attributes` mapping at one key. -/
def attrValues (as : List (String × List String)) (k : String) : List String :=
  ((as.filter (fun p => p.1 = k)).map (fun p => p.2)).flatten

/-- Modelled from the spec: add one attribute entry into a merged mapping:
a key already present has the new values merged in, a fresh key is kept
as-is (§4.3 step 2). -/
def addAttr (as : List (String × List String)) (kv : String × List String) :
    List (String × List String) :=
  if kv.1 ∈ attrKeys as then
    as.map (fun p => if p.1 = kv.1 then (p.1, mergeValues p.2 kv.2) else p)
  else as ++ [kv]

/-- Modelled from the spec: merge the `source_attributes` of a second
record into those of a first (§4.3 step 2). -/
def mergeAttrs (as bs : List (String × List String)) :
    List (String × List String) :=
  bs.foldl addAttr as

/-- Modelled from the spec: merge one further record of a bucket into the
canonical record; scalar fields keep the first-encountered value (§4.3
tie-break), attributes and source tags accumulate without loss. -/
def merge1 (a b : CompoundTaxonRecord) : CompoundTaxonRecord :=
  { a with
    source_attributes := mergeAttrs a.source_attributes b.source_attributes,
    source_tags := mergeValues a.source_tags b.source_tags }

/-- Modelled from the spec: collapse one bucket to a single merged record
(§4.3 step 3). -/
def mergeBucket : List CompoundTaxonRecord → CompoundTaxonRecord
  | [] => emptyRecord
  | r :: rs => rs.foldl merge1 r

/-- Modelled from the spec: a record is valid when both identity fields
are non-empty (§3 invariant, §4.3 failure clause). -/
def isValidRecord (r : CompoundTaxonRecord) : Bool :=
  r.compound_identity ≠ "" && r.taxon_identity ≠ ""

/-- Modelled from the spec: partition the candidate set into buckets keyed
by the caller-chosen key and emit one merged record per bucket, in
first-encounter key order (§4.3 steps 1-3). -/
def dedupRecords {κ : Type} [DecidableEq κ] (key : CompoundTaxonRecord → κ)
    (l : List CompoundTaxonRecord) : List CompoundTaxonRecord :=
  ((l.map key).dedup).map
    (fun k => mergeBucket (l.filter (fun r => key r = k)))

/-- Modelled from the spec: the Deduplication Engine `tidy_final_dataset`
(its Python body is not among the available sources; only callers are).
It drops records with an empty identity into a discard report and emits
one merged record per `(compound_identity, taxon_group_key)` bucket of the
remaining records (§4.3).  The key is caller-supplied, matching the
`comp_id_column` / taxon-grouping parameters of the Python function; file
output is ignored.  Returns (deduplicated records, discard report). -/
def tidy_final_dataset {κ : Type} [DecidableEq κ]
    (key : CompoundTaxonRecord → κ) (l : List CompoundTaxonRecord) :
    List CompoundTaxonRecord × List CompoundTaxonRecord :=
  (dedupRecords key (l.filter (fun r => isValidRecord r)),
   l.filter (fun r => !(isValidRecord r)))

/-- The canonical deduplication key of the spec's data model:
the `(compound_identity, taxon_group_key)` pair (§4.3 step 1). -/
def recordKey (r : CompoundTaxonRecord) : String × String :=
  (r.compound_identity, r.taxon_identity)

/-- Modelled from the spec: keying by a caller-supplied compound ID column
of the table together with the taxon grouping column (§4.3, readme
`comp_id_column`). -/
def columnKey (col : String) (r : CompoundTaxonRecord) :
    List String × String :=
  (attrValues r.source_attributes col, r.taxon_identity)

/-- Modelled from the spec: `FAD(g)` of `calculate_FAD_measures` (§4.5),
the sum of pairwise dissimilarities over all unordered compound pairs of a
group, computed by recursion on the compound list.  The Python body is not
among the available sources. -/
def FAD {α : Type} (d : α → α → ℚ) : List α → ℚ
  | [] => 0
  | c :: rest => (rest.map (d c)).sum + FAD d rest

/-- Modelled from the spec: `MFAD(g) = FAD(g) / |C_g|` with the degenerate
case `|C_g| ≤ 1 ⇒ 0` (§4.5). -/
def MFAD {α : Type} (d : α → α → ℚ) (C : List α) : ℚ :=
  if C.length ≤ 1 then 0 else FAD d C / (C.length : ℚ)

/-- Modelled from the spec: `calculate_FAD_measures` reports FAD and MFAD
for every taxon group (§4.5, §8 failure semantics: no group is omitted). -/
def calculate_FAD_measures {α : Type} (d : α → α → ℚ)
    (groups : List (String × List α)) : List (String × ℚ × ℚ) :=
  groups.map (fun g => (g.1, FAD d g.2, MFAD d g.2))

/-- Modelled from the spec: the per-group pathway-abundance vector, one
count per vocabulary pathway, a compound contributing to every pathway
label it carries (§4.5 pathway family, steps 1-2). -/
def abundanceVector (classOf : String → List String) (vocab : List String)
    (C : List String) : List ℕ :=
  vocab.map (fun k => (C.filter (fun c => k ∈ classOf c)).length)

/-- Modelled from the spec: richness, the count of pathways with non-zero
abundance (§4.5 pathway family, step 3). -/
def richness (a : List ℕ) : ℕ :=
  (a.filter (fun k => k ≠ 0)).length

/-- Modelled from the spec: Shannon entropy over the normalized abundance
vector, `-Σ p_k ln p_k` with `0 ln 0 := 0` (§4.5 pathway family, step 3).
Division by a zero total is the zero of `ℝ`, giving the degenerate value
0 required by §4.5. -/
noncomputable def shannon (a : List ℕ) : ℝ :=
  (a.map (fun k : ℕ => Real.negMulLog ((k : ℝ) / (a.sum : ℝ)))).sum

/-- Modelled from the spec: evenness, Shannon entropy divided by
`ln(richness)`, defined as 0 when richness ≤ 1 (§4.5 pathway family). -/
noncomputable def evenness (a : List ℕ) : ℝ :=
  if richness a ≤ 1 then 0 else shannon a / Real.log (richness a)

/-- Modelled from the spec: `get_pathway_based_diversity_measures` reports
richness, Shannon entropy and evenness of the pathway-abundance vector for
every taxon group (§4.5).  The Python body is not among the available
sources. -/
noncomputable def get_pathway_based_diversity_measures
    (classOf : String → List String) (vocab : List String)
    (groups : List (String × List String)) : List (String × ℕ × ℝ × ℝ) :=
  groups.map (fun g =>
    (g.1, richness (abundanceVector classOf vocab g.2),
     shannon (abundanceVector classOf vocab g.2),
     evenness (abundanceVector classOf vocab g.2)))

/-- Cache lookup for the Classification Join, keyed by compound identity
(§4.4). -/
def lookupCache (cache : List (String × List String)) (id : String) :
    Option (List String) :=
  (cache.find? (fun p => p.1 = id)).map (fun p => p.2)

/-- Modelled from the spec: one Classification Join step: the local cache
is consulted first; on a miss the external lookup is invoked, logged, and
its result written back to the cache before moving on (§4.4). -/
def classifyStep (classify : String → List String)
    (st : List (String × List String) × List String) (id : String) :
    List (String × List String) × List String :=
  match lookupCache st.1 id with
  | some _ => st
  | none => (st.1 ++ [(id, classify id)], st.2 ++ [id])

/-- Modelled from the spec: the Classification Join
`get_npclassifier_classes_from_df` (its Python body is not among the
available sources).  Builds the `PathwayClassification` cache over the
compound identities of the record set, returning the final cache together
with the log of external lookups performed (§4.4). -/
def get_npclassifier_classes_from_df (classify : String → List String)
    (cache0 : List (String × List String)) (ids : List String) :
    List (String × List String) × List String :=
  ids.foldl (classifyStep classify) (cache0, [])

/-! ### Merged value lists -/

theorem mem_insertNew {xs : List String} {w v : String} :
    v ∈ insertNew xs w ↔ v ∈ xs ∨ v = w := by
  unfold insertNew
  split
  · rename_i h
    constructor
    · exact fun hv => Or.inl hv
    · rintro (hv | rfl) <;> [exact hv; exact h]
  · simp [List.mem_append]

theorem nodup_insertNew {xs : List String} {w : String} (h : xs.Nodup) :
    (insertNew xs w).Nodup := by
  unfold insertNew
  split
  · exact h
  · rename_i hw
    simpa [List.nodup_append] using ⟨h, fun hmem => hw hmem⟩

theorem mem_mergeValues {xs ys : List String} {v : String} :
    v ∈ mergeValues xs ys ↔ v ∈ xs ∨ v ∈ ys := by
  induction ys generalizing xs with
  | nil => simp [mergeValues]
  | cons y ys ih =>
    have hstep : mergeValues xs (y :: ys) = mergeValues (insertNew xs y) ys := rfl
    rw [hstep, ih, mem_insertNew]
    simp only [List.mem_cons]
    tauto

theorem nodup_mergeValues {xs ys : List String} (h : xs.Nodup) :
    (mergeValues xs ys).Nodup := by
  induction ys generalizing xs with
  | nil => exact h
  | cons y ys ih => exact ih (nodup_insertNew h)

theorem mergeValues_extend (xs ys : List String) :
    ∃ zs, mergeValues xs ys = xs ++ zs := by
  induction ys generalizing xs with
  | nil => exact ⟨[], (List.append_nil xs).symm⟩
  | cons y ys ih =>
    have hstep : mergeValues xs (y :: ys) = mergeValues (insertNew xs y) ys := rfl
    obtain ⟨zs, hzs⟩ := ih (insertNew xs y)
    rw [hstep, hzs]
    unfold insertNew
    split
    · exact ⟨zs, rfl⟩
    · exact ⟨[y] ++ zs, by rw [List.append_assoc]⟩

theorem mergeValues_self_absorb {xs ys : List String} (h : ∀ v ∈ ys, v ∈ xs) :
    mergeValues xs ys = xs := by
  induction ys generalizing xs with
  | nil => rfl
  | cons y ys ih =>
    have hstep : mergeValues xs (y :: ys) = mergeValues (insertNew xs y) ys := rfl
    rw [hstep, insertNew, if_pos (h y (List.mem_cons_self _ _))]
    exact ih fun v hv => h v (List.mem_cons_of_mem _ hv)

/-! ### FAD measures -/

theorem sum_map_range {α β : Type} [AddCommMonoid β] (f : α → β) (x : α)
    (l : List α) :
    (l.map f).sum = ∑ i ∈ Finset.range l.length, f (l.getD i x) := by
  induction l with
  | nil => simp
  | cons a l ih =>
    simp only [List.map_cons, List.sum_cons, List.length_cons,
      Finset.sum_range_succ', List.getD_cons_succ, List.getD_cons_zero]
    rw [ih, add_comm]

/-- The recursive pairwise sum equals the indexed sum over all unordered
index pairs `i < j` of the compound list. -/
theorem FAD_eq_pair_sum {α : Type} (d : α → α → ℚ) (x₀ : α) (C : List α) :
    FAD d C = ∑ i ∈ Finset.range C.length, ∑ j ∈ Finset.range C.length,
      if i < j then d (C.getD i x₀) (C.getD j x₀) else 0 := by
  induction C with
  | nil => simp [FAD]
  | cons c rest ih =>
    rw [FAD, ih]
    simp only [List.length_cons]
    rw [Finset.sum_range_succ']
    have hrow0 : (∑ j ∈ Finset.range (rest.length + 1),
        if 0 < j then d ((c :: rest).getD 0 x₀) ((c :: rest).getD j x₀) else 0)
        = (rest.map (d c)).sum := by
      rw [Finset.sum_range_succ']
      simp only [List.getD_cons_zero, List.getD_cons_succ, Nat.succ_pos,
        if_true, Nat.lt_irrefl, if_false, add_zero]
      rw [sum_map_range (d c) x₀ rest]
    have hrows : (∑ i ∈ Finset.range rest.length,
        ∑ j ∈ Finset.range (rest.length + 1),
        if i + 1 < j then d ((c :: rest).getD (i + 1) x₀)
          ((c :: rest).getD j x₀) else 0)
        = ∑ i ∈ Finset.range rest.length, ∑ j ∈ Finset.range rest.length,
          if i < j then d (rest.getD i x₀) (rest.getD j x₀) else 0 := by
      refine Finset.sum_congr rfl fun i _ => ?_
      rw [Finset.sum_range_succ']
      simp [Nat.succ_lt_succ_iff]
    rw [hrow0, hrows, add_comm]

theorem FAD_nil {α : Type} (d : α → α → ℚ) : FAD d [] = 0 := rfl

theorem FAD_singleton {α : Type} (d : α → α → ℚ) (c : α) :
    FAD d [c] = 0 := by
  simp [FAD]

theorem MFAD_eq_div {α : Type} (d : α → α → ℚ) (C : List α) :
    MFAD d C = FAD d C / (C.length : ℚ) := by
  unfold MFAD
  split
  · rename_i h
    match C, h with
    | [], _ => simp [FAD]
    | [c], _ => simp [FAD_singleton]
  · rfl

/-! ### Attribute maps -/

theorem attrValues_nil (k : String) : attrValues [] k = [] := rfl

theorem attrValues_cons (p : String × List String)
    (as : List (String × List String)) (k : String) :
    attrValues (p :: as) k
      = (if p.1 = k then p.2 else []) ++ attrValues as k := by
  unfold attrValues
  by_cases h : p.1 = k
  · simp [List.filter_cons, h]
  · simp [List.filter_cons, h]

theorem attrValues_append (as bs : List (String × List String)) (k : String) :
    attrValues (as ++ bs) k = attrValues as k ++ attrValues bs k := by
  unfold attrValues
  rw [List.filter_append, List.map_append, List.flatten_append]

theorem attrValues_of_not_mem_keys {as : List (String × List String)}
    {k : String} (h : k ∉ attrKeys as) : attrValues as k = [] := by
  induction as with
  | nil => rfl
  | cons p as ih =>
    simp only [attrKeys, List.map_cons, List.mem_cons, not_or] at h
    rw [attrValues_cons, if_neg (fun hp => h.1 hp.symm), List.nil_append]
    exact ih h.2

theorem mem_attrKeys {as : List (String × List String)} {k : String} :
    k ∈ attrKeys as ↔ ∃ p ∈ as, p.1 = k := by
  simp [attrKeys]

theorem attrKeys_addAttr (as : List (String × List String))
    (kv : String × List String) :
    attrKeys (addAttr as kv)
      = if kv.1 ∈ attrKeys as then attrKeys as else attrKeys as ++ [kv.1] := by
  unfold addAttr
  split
  · unfold attrKeys
    rw [List.map_map]
    refine List.map_congr_left fun p _ => ?_
    by_cases hp : p.1 = kv.1 <;> simp [hp]
  · simp [attrKeys]

theorem mem_attrKeys_addAttr {as : List (String × List String)}
    {kv : String × List String} {k : String} :
    k ∈ attrKeys (addAttr as kv) ↔ k ∈ attrKeys as ∨ k = kv.1 := by
  rw [attrKeys_addAttr]
  split
  · rename_i h
    constructor
    · exact fun hk => Or.inl hk
    · rintro (hk | rfl) <;> [exact hk; exact h]
  · simp [List.mem_append]

theorem nodup_attrKeys_addAttr {as : List (String × List String)}
    {kv : String × List String} (h : (attrKeys as).Nodup) :
    (attrKeys (addAttr as kv)).Nodup := by
  rw [attrKeys_addAttr]
  split
  · exact h
  · rename_i hk
    simpa [List.nodup_append] using ⟨h, fun hmem => hk hmem⟩

theorem attrValues_map_update (as : List (String × List String))
    (kv : String × List String) (k : String) (h : kv.1 ≠ k) :
    attrValues
      (as.map (fun p => if p.1 = kv.1 then (p.1, mergeValues p.2 kv.2) else p)) k
      = attrValues as k := by
  induction as with
  | nil => rfl
  | cons p as ih =>
    rw [List.map_cons, attrValues_cons, attrValues_cons, ih]
    by_cases hp : p.1 = kv.1
    · rw [if_pos hp]
      rw [show ((p.1, mergeValues p.2 kv.2) : String × List String).1 = p.1
          from rfl, hp, if_neg h, if_neg (hp ▸ h)]
    · rw [if_neg hp]

theorem attrValues_addAttr_ne {as : List (String × List String)}
    {kv : String × List String} {k : String} (h : kv.1 ≠ k) :
    attrValues (addAttr as kv) k = attrValues as k := by
  unfold addAttr
  split
  · exact attrValues_map_update as kv k h
  · rw [attrValues_append, attrValues_cons, attrValues_nil, if_neg h,
      List.append_nil, List.append_nil]

theorem attrKeys_map_update (as : List (String × List String))
    (kv : String × List String) :
    attrKeys
      (as.map (fun p => if p.1 = kv.1 then (p.1, mergeValues p.2 kv.2) else p))
      = attrKeys as := by
  unfold attrKeys
  rw [List.map_map]
  refine List.map_congr_left fun p _ => ?_
  by_cases hp : p.1 = kv.1 <;> simp [hp]

theorem attrKeys_map_upd (as : List (String × List String)) (k : String)
    (vs : List String) :
    attrKeys
      (as.map (fun p => if p.1 = k then (p.1, mergeValues p.2 vs) else p))
      = attrKeys as := by
  unfold attrKeys
  rw [List.map_map]
  refine List.map_congr_left fun p _ => ?_
  by_cases hp : p.1 = k <;> simp [hp]

theorem attrValues_addAttr_new {as : List (String × List String)}
    {vs : List String} {k : String} (hk : k ∉ attrKeys as) :
    attrValues (addAttr as (k, vs)) k = vs := by
  unfold addAttr
  rw [if_neg hk, attrValues_append, attrValues_of_not_mem_keys hk,
    attrValues_cons, attrValues_nil, if_pos rfl, List.nil_append,
    List.append_nil]

theorem attrValues_map_upd_self (vs : List String) (k : String) :
    ∀ as : List (String × List String), (attrKeys as).Nodup →
    k ∈ attrKeys as →
    attrValues
      (as.map (fun p => if p.1 = k then (p.1, mergeValues p.2 vs) else p)) k
      = mergeValues (attrValues as k) vs := by
  intro as
  induction as with
  | nil => intro _ hk; simp [attrKeys] at hk
  | cons p as ih =>
    intro hnd hk
    have hnd' : p.1 ∉ attrKeys as ∧ (attrKeys as).Nodup := by
      unfold attrKeys at hnd
      rw [List.map_cons, List.nodup_cons] at hnd
      exact hnd
    rw [List.map_cons, attrValues_cons, attrValues_cons]
    by_cases hp : p.1 = k
    · have hknotin : k ∉ attrKeys as := fun hmem => hnd'.1 (hp ▸ hmem)
      have h1 : attrValues as k = [] := attrValues_of_not_mem_keys hknotin
      have h2 : attrValues
          (as.map (fun q => if q.1 = k then (q.1, mergeValues q.2 vs) else q)) k
          = [] := by
        refine attrValues_of_not_mem_keys ?_
        rw [attrKeys_map_upd]
        exact hknotin
      simp [hp, h1, h2]
    · have hkas : k ∈ attrKeys as := by
        unfold attrKeys at hk
        rw [List.map_cons, List.mem_cons] at hk
        rcases hk with hk | hk
        · exact absurd hk.symm hp
        · exact hk
      simp only [if_neg hp]
      simp [hp]
      exact ih hnd'.2 hkas

theorem attrValues_addAttr_self {as : List (String × List String)}
    {vs : List String} {k : String} (hnd : (attrKeys as).Nodup)
    (hk : k ∈ attrKeys as) :
    attrValues (addAttr as (k, vs)) k = mergeValues (attrValues as k) vs := by
  unfold addAttr
  rw [if_pos hk]
  exact attrValues_map_upd_self vs k as hnd hk

theorem mem_attrValues_addAttr {as : List (String × List String)}
    {kv : String × List String} {k v : String}
    (hnd : (attrKeys as).Nodup) :
    v ∈ attrValues (addAttr as kv) k
      ↔ v ∈ attrValues as k ∨ (kv.1 = k ∧ v ∈ kv.2) := by
  by_cases hkk : kv.1 = k
  · subst hkk
    rw [show kv = (kv.1, kv.2) from rfl]
    by_cases hk : kv.1 ∈ attrKeys as
    · rw [attrValues_addAttr_self hnd hk, mem_mergeValues]
      simp
    · rw [attrValues_addAttr_new hk, attrValues_of_not_mem_keys hk]
      simp
  · rw [attrValues_addAttr_ne hkk]
    simp [hkk]

theorem nodup_attrKeys_mergeAttrs {as bs : List (String × List String)}
    (h : (attrKeys as).Nodup) : (attrKeys (mergeAttrs as bs)).Nodup := by
  induction bs generalizing as with
  | nil => exact h
  | cons kv bs ih => exact ih (nodup_attrKeys_addAttr h)

theorem mem_attrKeys_mergeAttrs {as bs : List (String × List String)}
    {k : String} :
    k ∈ attrKeys (mergeAttrs as bs) ↔ k ∈ attrKeys as ∨ k ∈ attrKeys bs := by
  induction bs generalizing as with
  | nil => simp [mergeAttrs, attrKeys]
  | cons kv bs ih =>
    have hstep : mergeAttrs as (kv :: bs) = mergeAttrs (addAttr as kv) bs := rfl
    rw [hstep, ih, mem_attrKeys_addAttr]
    unfold attrKeys
    rw [List.map_cons, List.mem_cons]
    tauto

theorem mem_attrValues_mergeAttrs {as bs : List (String × List String)}
    {k v : String} (hnd : (attrKeys as).Nodup) :
    v ∈ attrValues (mergeAttrs as bs) k
      ↔ v ∈ attrValues as k ∨ v ∈ attrValues bs k := by
  induction bs generalizing as with
  | nil => simp [mergeAttrs, attrValues_nil]
  | cons kv bs ih =>
    have hstep : mergeAttrs as (kv :: bs) = mergeAttrs (addAttr as kv) bs := rfl
    rw [hstep, ih (nodup_attrKeys_addAttr hnd), mem_attrValues_addAttr hnd,
      attrValues_cons, List.mem_append]
    by_cases hkk : kv.1 = k
    · simp [hkk]
      tauto
    · simp [hkk]

theorem attrValues_mergeAttrs_of_not_mem {as bs : List (String × List String)}
    {k : String} (h : k ∉ attrKeys bs) :
    attrValues (mergeAttrs as bs) k = attrValues as k := by
  induction bs generalizing as with
  | nil => rfl
  | cons kv bs ih =>
    unfold attrKeys at h
    rw [List.map_cons, List.mem_cons, not_or] at h
    have hstep : mergeAttrs as (kv :: bs) = mergeAttrs (addAttr as kv) bs := rfl
    rw [hstep, ih h.2, attrValues_addAttr_ne (fun he => h.1 he.symm)]

theorem attrValues_mergeAttrs_of_fresh {as bs : List (String × List String)}
    {k : String} (has : k ∉ attrKeys as) (hnd : (attrKeys bs).Nodup) :
    attrValues (mergeAttrs as bs) k = attrValues bs k := by
  induction bs generalizing as with
  | nil =>
    exact (attrValues_of_not_mem_keys has).trans (attrValues_nil k).symm
  | cons kv bs ih =>
    have hstep : mergeAttrs as (kv :: bs) = mergeAttrs (addAttr as kv) bs := rfl
    have hnd' : kv.1 ∉ attrKeys bs ∧ (attrKeys bs).Nodup := by
      unfold attrKeys at hnd
      rw [List.map_cons, List.nodup_cons] at hnd
      exact hnd
    rw [hstep, attrValues_cons]
    by_cases hkk : kv.1 = k
    · have hbs : k ∉ attrKeys bs := fun hmem => hnd'.1 (hkk ▸ hmem)
      rw [attrValues_mergeAttrs_of_not_mem hbs]
      rw [show kv = (kv.1, kv.2) from rfl, hkk] at *
      rw [attrValues_addAttr_new has, if_pos rfl,
        attrValues_of_not_mem_keys hbs, List.append_nil]
    · have has' : k ∉ attrKeys (addAttr as kv) := by
        rw [mem_attrKeys_addAttr]
        rintro (hmem | hmem) <;> [exact has hmem; exact hkk hmem.symm]
      rw [ih has' hnd'.2, if_neg hkk, List.nil_append]

theorem attrValues_mergeAttrs_absorb {as bs : List (String × List String)}
    {k : String} (hndas : (attrKeys as).Nodup) (hndbs : (attrKeys bs).Nodup)
    (hval : attrValues as k = attrValues bs k) :
    attrValues (mergeAttrs as bs) k = attrValues as k := by
  induction bs generalizing as with
  | nil => rfl
  | cons kv bs ih =>
    have hstep : mergeAttrs as (kv :: bs) = mergeAttrs (addAttr as kv) bs := rfl
    have hnd' : kv.1 ∉ attrKeys bs ∧ (attrKeys bs).Nodup := by
      unfold attrKeys at hndbs
      rw [List.map_cons, List.nodup_cons] at hndbs
      exact hndbs
    rw [attrValues_cons] at hval
    by_cases hkk : kv.1 = k
    · have hbs : k ∉ attrKeys bs := fun hmem => hnd'.1 (hkk ▸ hmem)
      rw [if_pos hkk, attrValues_of_not_mem_keys hbs, List.append_nil] at hval
      rw [hstep, attrValues_mergeAttrs_of_not_mem hbs]
      by_cases hk : k ∈ attrKeys as
      · rw [show kv = (kv.1, kv.2) from rfl, hkk]
        rw [attrValues_addAttr_self hndas hk, hval]
        exact mergeValues_self_absorb (fun v hv => hv)
      · rw [show kv = (kv.1, kv.2) from rfl, hkk]
        rw [attrValues_addAttr_new hk, ← hval]
    · rw [if_neg hkk, List.nil_append] at hval
      rw [hstep, ih (nodup_attrKeys_addAttr hndas) hnd'.2
        (by rw [attrValues_addAttr_ne hkk, hval]),
        attrValues_addAttr_ne hkk]

theorem nodup_attrValues {as : List (String × List String)} {k : String}
    (hnd : (attrKeys as).Nodup) (hvals : ∀ p ∈ as, p.2.Nodup) :
    (attrValues as k).Nodup := by
  induction as with
  | nil => simp [attrValues_nil]
  | cons p as ih =>
    have hnd' : p.1 ∉ attrKeys as ∧ (attrKeys as).Nodup := by
      unfold attrKeys at hnd
      rw [List.map_cons, List.nodup_cons] at hnd
      exact hnd
    rw [attrValues_cons]
    by_cases hp : p.1 = k
    · rw [if_pos hp,
        attrValues_of_not_mem_keys (fun hm => hnd'.1 (hp ▸ hm)),
        List.append_nil]
      exact hvals p (List.mem_cons_self _ _)
    · rw [if_neg hp, List.nil_append]
      exact ih hnd'.2 fun q hq => hvals q (List.mem_cons_of_mem _ hq)

theorem values_nodup_addAttr {as : List (String × List String)}
    {kv : String × List String} (hvals : ∀ p ∈ as, p.2.Nodup)
    (hkv : kv.2.Nodup) : ∀ p ∈ addAttr as kv, p.2.Nodup := by
  intro p hp
  unfold addAttr at hp
  split at hp
  · rw [List.mem_map] at hp
    obtain ⟨q, hq, rfl⟩ := hp
    by_cases hq1 : q.1 = kv.1
    · rw [if_pos hq1]
      exact nodup_mergeValues (hvals q hq)
    · rw [if_neg hq1]
      exact hvals q hq
  · rw [List.mem_append] at hp
    rcases hp with hp | hp
    · exact hvals p hp
    · rw [List.mem_singleton] at hp
      exact hp ▸ hkv

theorem values_nodup_mergeAttrs {as bs : List (String × List String)}
    (hvals : ∀ p ∈ as, p.2.Nodup) (hbs : ∀ p ∈ bs, p.2.Nodup) :
    ∀ p ∈ mergeAttrs as bs, p.2.Nodup := by
  induction bs generalizing as with
  | nil => exact hvals
  | cons kv bs ih =>
    exact ih
      (values_nodup_addAttr hvals (hbs kv (List.mem_cons_self _ _)))
      (fun q hq => hbs q (List.mem_cons_of_mem _ hq))

theorem attrValues_addAttr_extend {as : List (String × List String)}
    {kv : String × List String} {k : String}
    (hnd : (attrKeys as).Nodup) :
    ∃ zs, attrValues (addAttr as kv) k = attrValues as k ++ zs := by
  by_cases hkk : kv.1 = k
  · subst hkk
    rw [show kv = (kv.1, kv.2) from rfl]
    by_cases hk : kv.1 ∈ attrKeys as
    · rw [attrValues_addAttr_self hnd hk]
      exact mergeValues_extend _ _
    · rw [attrValues_addAttr_new hk, attrValues_of_not_mem_keys hk]
      exact ⟨kv.2, rfl⟩
  · rw [attrValues_addAttr_ne hkk]
    exact ⟨[], (List.append_nil _).symm⟩

theorem attrValues_mergeAttrs_extend {as bs : List (String × List String)}
    {k : String} (hnd : (attrKeys as).Nodup) :
    ∃ zs, attrValues (mergeAttrs as bs) k = attrValues as k ++ zs := by
  induction bs generalizing as with
  | nil => exact ⟨[], (List.append_nil _).symm⟩
  | cons kv bs ih =>
    have hstep : mergeAttrs as (kv :: bs) = mergeAttrs (addAttr as kv) bs := rfl
    obtain ⟨z2, hz2⟩ := ih (nodup_attrKeys_addAttr hnd)
    obtain ⟨z1, hz1⟩ := @attrValues_addAttr_extend as kv k hnd
    exact ⟨z1 ++ z2, by rw [hstep, hz2, hz1, List.append_assoc]⟩

/-! ### Merging a bucket of records -/

theorem foldl_merge1_compound (rs : List CompoundTaxonRecord)
    (acc : CompoundTaxonRecord) :
    (rs.foldl merge1 acc).compound_identity = acc.compound_identity := by
  induction rs generalizing acc with
  | nil => rfl
  | cons x rs ih => exact ih (merge1 acc x)

theorem foldl_merge1_taxon (rs : List CompoundTaxonRecord)
    (acc : CompoundTaxonRecord) :
    (rs.foldl merge1 acc).taxon_identity = acc.taxon_identity := by
  induction rs generalizing acc with
  | nil => rfl
  | cons x rs ih => exact ih (merge1 acc x)

theorem foldl_merge1_raw (rs : List CompoundTaxonRecord)
    (acc : CompoundTaxonRecord) :
    (rs.foldl merge1 acc).raw_structure = acc.raw_structure := by
  induction rs generalizing acc with
  | nil => rfl
  | cons x rs ih => exact ih (merge1 acc x)

theorem foldl_merge1_keys_nodup (rs : List CompoundTaxonRecord)
    (acc : CompoundTaxonRecord)
    (h : (attrKeys acc.source_attributes).Nodup) :
    (attrKeys (rs.foldl merge1 acc).source_attributes).Nodup := by
  induction rs generalizing acc with
  | nil => exact h
  | cons x rs ih => exact ih (merge1 acc x) (nodup_attrKeys_mergeAttrs h)

theorem foldl_merge1_mem_attrValues (rs : List CompoundTaxonRecord)
    (acc : CompoundTaxonRecord) (k v : String)
    (hnd : (attrKeys acc.source_attributes).Nodup) :
    v ∈ attrValues (rs.foldl merge1 acc).source_attributes k
      ↔ v ∈ attrValues acc.source_attributes k
        ∨ ∃ b ∈ rs, v ∈ attrValues b.source_attributes k := by
  induction rs generalizing acc with
  | nil => simp
  | cons x rs ih =>
    rw [List.foldl_cons, ih (merge1 acc x) (nodup_attrKeys_mergeAttrs hnd)]
    have hx : v ∈ attrValues (merge1 acc x).source_attributes k
        ↔ v ∈ attrValues acc.source_attributes k
          ∨ v ∈ attrValues x.source_attributes k :=
      mem_attrValues_mergeAttrs hnd
    rw [hx]
    simp only [List.mem_cons]
    constructor
    · rintro ((h | h) | ⟨b, hb, h⟩)
      · exact Or.inl h
      · exact Or.inr ⟨x, Or.inl rfl, h⟩
      · exact Or.inr ⟨b, Or.inr hb, h⟩
    · rintro (h | ⟨b, (rfl | hb), h⟩)
      · exact Or.inl (Or.inl h)
      · exact Or.inl (Or.inr h)
      · exact Or.inr ⟨b, hb, h⟩

theorem foldl_merge1_values_nodup (rs : List CompoundTaxonRecord)
    (acc : CompoundTaxonRecord)
    (hacc : ∀ p ∈ acc.source_attributes, p.2.Nodup)
    (hrs : ∀ b ∈ rs, ∀ p ∈ b.source_attributes, p.2.Nodup) :
    ∀ p ∈ (rs.foldl merge1 acc).source_attributes, p.2.Nodup := by
  induction rs generalizing acc with
  | nil => exact hacc
  | cons x rs ih =>
    exact ih (merge1 acc x)
      (values_nodup_mergeAttrs hacc (hrs x (List.mem_cons_self _ _)))
      (fun b hb => hrs b (List.mem_cons_of_mem _ hb))

theorem foldl_merge1_extend (rs : List CompoundTaxonRecord)
    (acc : CompoundTaxonRecord) (k : String)
    (hnd : (attrKeys acc.source_attributes).Nodup) :
    ∃ zs, attrValues (rs.foldl merge1 acc).source_attributes k
      = attrValues acc.source_attributes k ++ zs := by
  induction rs generalizing acc with
  | nil => exact ⟨[], (List.append_nil _).symm⟩
  | cons x rs ih =>
    obtain ⟨z2, hz2⟩ := ih (merge1 acc x) (nodup_attrKeys_mergeAttrs hnd)
    obtain ⟨z1, hz1⟩ :=
      @attrValues_mergeAttrs_extend acc.source_attributes
        x.source_attributes k hnd
    exact ⟨z1 ++ z2, by
      rw [List.foldl_cons, hz2,
        show (merge1 acc x).source_attributes
          = mergeAttrs acc.source_attributes x.source_attributes from rfl,
        hz1, List.append_assoc]⟩

theorem foldl_merge1_tags_mem (rs : List CompoundTaxonRecord)
    (acc : CompoundTaxonRecord) (t : String) :
    t ∈ (rs.foldl merge1 acc).source_tags
      ↔ t ∈ acc.source_tags ∨ ∃ b ∈ rs, t ∈ b.source_tags := by
  induction rs generalizing acc with
  | nil => simp
  | cons x rs ih =>
    rw [List.foldl_cons, ih (merge1 acc x)]
    have hx : t ∈ (merge1 acc x).source_tags
        ↔ t ∈ acc.source_tags ∨ t ∈ x.source_tags := mem_mergeValues
    rw [hx]
    simp only [List.mem_cons]
    constructor
    · rintro ((h | h) | ⟨b, hb, h⟩)
      · exact Or.inl h
      · exact Or.inr ⟨x, Or.inl rfl, h⟩
      · exact Or.inr ⟨b, Or.inr hb, h⟩
    · rintro (h | ⟨b, (rfl | hb), h⟩)
      · exact Or.inl (Or.inl h)
      · exact Or.inl (Or.inr h)
      · exact Or.inr ⟨b, hb, h⟩

theorem foldl_merge1_tags_nodup (rs : List CompoundTaxonRecord)
    (acc : CompoundTaxonRecord) (h : acc.source_tags.Nodup) :
    (rs.foldl merge1 acc).source_tags.Nodup := by
  induction rs generalizing acc with
  | nil => exact h
  | cons x rs ih => exact ih (merge1 acc x) (nodup_mergeValues h)

theorem foldl_merge1_keys_not_mem (rs : List CompoundTaxonRecord)
    (acc : CompoundTaxonRecord) (k : String)
    (hacc : k ∉ attrKeys acc.source_attributes)
    (hrs : ∀ x ∈ rs, k ∉ attrKeys x.source_attributes) :
    k ∉ attrKeys (rs.foldl merge1 acc).source_attributes := by
  induction rs generalizing acc with
  | nil => exact hacc
  | cons x rs ih =>
    refine ih (merge1 acc x) ?_ fun b hb => hrs b (List.mem_cons_of_mem _ hb)
    intro hmem
    rcases mem_attrKeys_mergeAttrs.1 hmem with h | h
    · exact hacc h
    · exact hrs x (List.mem_cons_self _ _) h

theorem foldl_merge1_value_stable (rs : List CompoundTaxonRecord)
    (acc b : CompoundTaxonRecord) (k : String)
    (haccnd : (attrKeys acc.source_attributes).Nodup)
    (hbnd : (attrKeys b.source_attributes).Nodup)
    (hval : attrValues acc.source_attributes k
      = attrValues b.source_attributes k)
    (hothers : ∀ x ∈ rs, x ≠ b → k ∉ attrKeys x.source_attributes) :
    attrValues (rs.foldl merge1 acc).source_attributes k
      = attrValues b.source_attributes k := by
  induction rs generalizing acc with
  | nil => exact hval
  | cons x rs ih =>
    rw [List.foldl_cons]
    by_cases hx : x = b
    · subst hx
      refine ih (merge1 acc x) (nodup_attrKeys_mergeAttrs haccnd) ?_
        fun y hy => hothers y (List.mem_cons_of_mem _ hy)
      rw [show (merge1 acc x).source_attributes
        = mergeAttrs acc.source_attributes x.source_attributes from rfl,
        attrValues_mergeAttrs_absorb haccnd hbnd hval]
      exact hval
    · refine ih (merge1 acc x) (nodup_attrKeys_mergeAttrs haccnd) ?_
        fun y hy => hothers y (List.mem_cons_of_mem _ hy)
      rw [show (merge1 acc x).source_attributes
        = mergeAttrs acc.source_attributes x.source_attributes from rfl,
        attrValues_mergeAttrs_of_not_mem
          (hothers x (List.mem_cons_self _ _) hx)]
      exact hval

theorem foldl_merge1_unique_holder (rs : List CompoundTaxonRecord)
    (acc b : CompoundTaxonRecord) (k : String)
    (haccnd : (attrKeys acc.source_attributes).Nodup)
    (hrsnd : ∀ x ∈ rs, (attrKeys x.source_attributes).Nodup)
    (hb : b ∈ rs) (hacc : k ∉ attrKeys acc.source_attributes)
    (hothers : ∀ x ∈ rs, x ≠ b → k ∉ attrKeys x.source_attributes) :
    attrValues (rs.foldl merge1 acc).source_attributes k
      = attrValues b.source_attributes k := by
  induction rs generalizing acc with
  | nil => exact absurd hb (List.not_mem_nil b)
  | cons x rs ih =>
    rw [List.foldl_cons]
    by_cases hx : x = b
    · subst hx
      have hv : attrValues (merge1 acc x).source_attributes k
          = attrValues x.source_attributes k := by
        rw [show (merge1 acc x).source_attributes
          = mergeAttrs acc.source_attributes x.source_attributes from rfl]
        exact attrValues_mergeAttrs_of_fresh hacc
          (hrsnd x (List.mem_cons_self _ _))
      exact foldl_merge1_value_stable rs (merge1 acc x) x k
        (nodup_attrKeys_mergeAttrs haccnd) (hrsnd x (List.mem_cons_self _ _))
        hv (fun y hy => hothers y (List.mem_cons_of_mem _ hy))
    · have hb' : b ∈ rs := by
        rcases List.mem_cons.1 hb with h | h
        · exact absurd h.symm hx
        · exact h
      have hxk : k ∉ attrKeys x.source_attributes :=
        hothers x (List.mem_cons_self _ _) hx
      refine ih (merge1 acc x) (nodup_attrKeys_mergeAttrs haccnd)
        (fun y hy => hrsnd y (List.mem_cons_of_mem _ hy)) hb' ?_
        (fun y hy => hothers y (List.mem_cons_of_mem _ hy))
      intro hmem
      rcases mem_attrKeys_mergeAttrs.1 hmem with h | h
      · exact hacc h
      · exact hxk h

/-! ### Deduplication -/

theorem bucket_exists {κ : Type} [DecidableEq κ]
    (key : CompoundTaxonRecord → κ) (l : List CompoundTaxonRecord) (k : κ)
    (hk : k ∈ (l.map key).dedup) :
    ∃ r rs, l.filter (fun r => key r = k) = r :: rs ∧ key r = k := by
  rw [List.mem_dedup, List.mem_map] at hk
  obtain ⟨a, ha, hak⟩ := hk
  have hmem : a ∈ l.filter (fun r => key r = k) :=
    List.mem_filter.2 ⟨ha, by simp [hak]⟩
  cases hfil : l.filter (fun r => key r = k) with
  | nil => rw [hfil] at hmem; exact absurd hmem (List.not_mem_nil a)
  | cons r rs =>
    have hr : r ∈ l.filter (fun r => key r = k) := by
      rw [hfil]; exact List.mem_cons_self _ _
    exact ⟨r, rs, rfl, by simpa using (List.mem_filter.1 hr).2⟩

theorem foldl_merge1_key {κ : Type} (key : CompoundTaxonRecord → κ)
    (hkey : ∀ a b, key a = key b → key (merge1 a b) = key a)
    (rs : List CompoundTaxonRecord) (acc : CompoundTaxonRecord)
    (hrs : ∀ b ∈ rs, key b = key acc) :
    key (rs.foldl merge1 acc) = key acc := by
  induction rs generalizing acc with
  | nil => rfl
  | cons x rs ih =>
    rw [List.foldl_cons]
    have hx : key (merge1 acc x) = key acc :=
      hkey acc x (hrs x (List.mem_cons_self _ _)).symm
    rw [ih (merge1 acc x) fun b hb => by
      rw [hx]; exact hrs b (List.mem_cons_of_mem _ hb)]
    exact hx

theorem dedupRecords_map_key {κ : Type} [DecidableEq κ]
    (key : CompoundTaxonRecord → κ)
    (hkey : ∀ a b, key a = key b → key (merge1 a b) = key a)
    (l : List CompoundTaxonRecord) :
    (dedupRecords key l).map key = (l.map key).dedup := by
  unfold dedupRecords
  rw [List.map_map]
  have hpt : ∀ k ∈ (l.map key).dedup,
      (key ∘ fun k => mergeBucket (l.filter (fun r => key r = k))) k = k := by
    intro k hk
    obtain ⟨r, rs, hfil, hrk⟩ := bucket_exists key l k hk
    show key (mergeBucket (l.filter (fun r => key r = k))) = k
    rw [hfil]
    show key (rs.foldl merge1 r) = k
    rw [foldl_merge1_key key hkey rs r ?_, hrk]
    intro b hb
    have hbmem : b ∈ l.filter (fun r => key r = k) := by
      rw [hfil]; exact List.mem_cons_of_mem _ hb
    have := (List.mem_filter.1 hbmem).2
    rw [hrk]
    simpa using this
  rw [List.map_congr_left hpt]
  simp

theorem filter_key_eq_singleton {κ : Type} [DecidableEq κ]
    (key : CompoundTaxonRecord → κ) :
    ∀ out : List CompoundTaxonRecord, (out.map key).Nodup →
    ∀ r ∈ out, out.filter (fun x => key x = key r) = [r] := by
  intro out
  induction out with
  | nil => intro _ r hr; exact absurd hr (List.not_mem_nil r)
  | cons a out ih =>
    intro hnd r hr
    rw [List.map_cons, List.nodup_cons] at hnd
    rw [List.filter_cons]
    rcases List.mem_cons.1 hr with rfl | hr'
    · have hc : (decide (key r = key r)) = true := by simp
      rw [if_pos hc]
      have hempty : out.filter (fun x => key x = key r) = [] := by
        rw [List.filter_eq_nil_iff]
        intro x hx hpx
        have hpx2 : key x = key r := by simpa using hpx
        exact hnd.1 (List.mem_map.2 ⟨x, hx, hpx2⟩)
      rw [hempty]
    · have hne : key a ≠ key r := by
        intro he
        exact hnd.1 (List.mem_map.2 ⟨r, hr', he.symm⟩)
      have hc2 : ¬((decide (key a = key r)) = true) := by
        simpa using hne
      rw [if_neg hc2]
      exact ih hnd.2 r hr'

theorem dedupRecords_idem {κ : Type} [DecidableEq κ]
    (key : CompoundTaxonRecord → κ)
    (hkey : ∀ a b, key a = key b → key (merge1 a b) = key a)
    (l : List CompoundTaxonRecord) :
    dedupRecords key (dedupRecords key l) = dedupRecords key l := by
  have hnd : ((dedupRecords key l).map key).Nodup := by
    rw [dedupRecords_map_key key hkey l]
    exact List.nodup_dedup _
  show (((dedupRecords key l).map key).dedup).map
      (fun k => mergeBucket ((dedupRecords key l).filter (fun r => key r = k)))
    = dedupRecords key l
  rw [List.dedup_eq_self.2 hnd, List.map_map]
  have hpt : ∀ r ∈ dedupRecords key l,
      ((fun k => mergeBucket
        ((dedupRecords key l).filter (fun x => key x = k))) ∘ key) r = r := by
    intro r hr
    show mergeBucket
      ((dedupRecords key l).filter (fun x => key x = key r)) = r
    rw [filter_key_eq_singleton key (dedupRecords key l) hnd r hr]
    rfl
  rw [List.map_congr_left hpt]
  simp

theorem isValid_foldl_merge1 (rs : List CompoundTaxonRecord)
    (acc : CompoundTaxonRecord) :
    isValidRecord (rs.foldl merge1 acc) = isValidRecord acc := by
  unfold isValidRecord
  rw [foldl_merge1_compound, foldl_merge1_taxon]

theorem mem_dedupRecords_valid {κ : Type} [DecidableEq κ]
    (key : CompoundTaxonRecord → κ) (l : List CompoundTaxonRecord) :
    ∀ r ∈ dedupRecords key (l.filter (fun r => isValidRecord r)),
      isValidRecord r = true := by
  intro r hr
  unfold dedupRecords at hr
  rw [List.mem_map] at hr
  obtain ⟨k, hk, hrk⟩ := hr
  obtain ⟨r0, rs0, hfil, _⟩ :=
    bucket_exists key (l.filter (fun r => isValidRecord r)) k hk
  rw [hfil] at hrk
  have hr0 : r0 ∈ l.filter (fun r => isValidRecord r) := by
    have : r0 ∈ (l.filter (fun r => isValidRecord r)).filter
        (fun r => key r = k) := by
      rw [hfil]; exact List.mem_cons_self _ _
    exact (List.mem_filter.1 this).1
  have hvalid : isValidRecord r0 = true := by
    simpa using (List.mem_filter.1 hr0).2
  rw [← hrk]
  show isValidRecord (rs0.foldl merge1 r0) = true
  rw [isValid_foldl_merge1]
  exact hvalid

/-! ### Shannon entropy bounds -/

theorem filter_ne_zero_sum (a : List ℕ) :
    (a.filter (fun k => k ≠ 0)).sum = a.sum := by
  induction a with
  | nil => rfl
  | cons k a ih =>
    rw [List.filter_cons]
    by_cases hk : k = 0
    · subst hk
      simpa using ih
    · have hc : (decide (k ≠ 0)) = true := by simp [hk]
      rw [if_pos hc, List.sum_cons, List.sum_cons, ih]

theorem sum_map_filter_ne_zero (f : ℕ → ℝ) (hf : f 0 = 0) (a : List ℕ) :
    ((a.filter (fun k => k ≠ 0)).map f).sum = (a.map f).sum := by
  induction a with
  | nil => rfl
  | cons k a ih =>
    rw [List.filter_cons]
    by_cases hk : k = 0
    · subst hk
      simpa [hf] using ih
    · have hc : (decide (k ≠ 0)) = true := by simp [hk]
      rw [if_pos hc, List.map_cons, List.sum_cons, List.map_cons,
        List.sum_cons, ih]

theorem richness_eq_zero_forall {a : List ℕ} (h : richness a = 0) :
    ∀ k ∈ a, k = 0 := by
  unfold richness at h
  rw [List.length_eq_zero, List.filter_eq_nil_iff] at h
  intro k hk
  by_contra hne
  exact absurd (by simpa using h k hk) hne

theorem shannon_of_richness_zero {a : List ℕ} (h : richness a = 0) :
    shannon a = 0 := by
  unfold shannon
  refine List.sum_eq_zero fun x hx => ?_
  rw [List.mem_map] at hx
  obtain ⟨k, hk, rfl⟩ := hx
  rw [richness_eq_zero_forall h k hk]
  simp

theorem shannon_nonneg (a : List ℕ) : 0 ≤ shannon a := by
  unfold shannon
  refine List.sum_nonneg fun x hx => ?_
  rw [List.mem_map] at hx
  obtain ⟨k, hk, rfl⟩ := hx
  by_cases hT : a.sum = 0
  · rw [hT]
    simp
  · have hTpos : (0:ℝ) < (a.sum : ℝ) :=
      Nat.cast_pos.2 (Nat.pos_of_ne_zero hT)
    refine Real.negMulLog_nonneg (by positivity) ?_
    rw [div_le_one hTpos]
    exact_mod_cast List.single_le_sum (fun x _ => Nat.zero_le x) k hk

theorem negMulLog_le_bound {x : ℝ} (hx : 0 < x) {n : ℕ} (hn : 0 < n) :
    Real.negMulLog x ≤ 1 / (n : ℝ) - x + x * Real.log n := by
  have hnR : (0:ℝ) < (n : ℝ) := Nat.cast_pos.2 hn
  have hx0 : x ≠ 0 := ne_of_gt hx
  have hn0 : (n:ℝ) ≠ 0 := ne_of_gt hnR
  have hlog : Real.log (1/((n:ℝ)*x)) ≤ 1/((n:ℝ)*x) - 1 :=
    Real.log_le_sub_one_of_pos (by positivity)
  have hlogeq : Real.log (1/((n:ℝ)*x)) = -(Real.log n + Real.log x) := by
    rw [one_div, Real.log_inv, Real.log_mul hn0 hx0]
  rw [hlogeq] at hlog
  have hmul := mul_le_mul_of_nonneg_left hlog (le_of_lt hx)
  have hL : x * (-(Real.log n + Real.log x))
      = Real.negMulLog x - x * Real.log n := by
    unfold Real.negMulLog
    ring
  have hR : x * (1/((n:ℝ)*x) - 1) = 1/(n:ℝ) - x := by
    field_simp
    ring
  rw [hL, hR] at hmul
  linarith

theorem sum_map_cast (P : List ℕ) :
    (P.map (fun k : ℕ => (k : ℝ))).sum = (P.sum : ℝ) := by
  induction P with
  | nil => simp
  | cons q Q ih =>
    rw [List.map_cons, List.sum_cons, List.sum_cons, ih]
    push_cast
    ring

theorem sum_map_div (P : List ℕ) (T : ℝ) :
    (P.map (fun k : ℕ => (k : ℝ) / T)).sum
      = (P.map (fun k : ℕ => (k : ℝ))).sum / T := by
  induction P with
  | nil => simp
  | cons q Q ih => simp [ih, add_div]

theorem sum_map_affine (P : List ℕ) (c w T : ℝ) :
    (P.map (fun k : ℕ => c - (k : ℝ) / T + ((k : ℝ) / T) * w)).sum
      = (P.length : ℝ) * c - (P.map (fun k : ℕ => (k : ℝ) / T)).sum
        + (P.map (fun k : ℕ => (k : ℝ) / T)).sum * w := by
  induction P with
  | nil => simp
  | cons q Q ih =>
    simp only [List.map_cons, List.sum_cons, List.length_cons, ih]
    push_cast
    ring

theorem shannon_le_log_richness {a : List ℕ} (h : 0 < richness a) :
    shannon a ≤ Real.log (richness a) := by
  have hPsum : (a.filter (fun k => k ≠ 0)).sum = a.sum := filter_ne_zero_sum a
  have hPpos : ∀ k ∈ a.filter (fun k => k ≠ 0), 0 < k := by
    intro k hk
    have := (List.mem_filter.1 hk).2
    exact Nat.pos_of_ne_zero (by simpa using this)
  have hPnil : a.filter (fun k => k ≠ 0) ≠ [] := by
    intro hnil
    unfold richness at h
    rw [hnil] at h
    exact absurd h (by simp)
  have hTpos : 0 < a.sum := by
    obtain ⟨k, hk⟩ := List.exists_mem_of_ne_nil _ hPnil
    calc 0 < k := hPpos k hk
      _ ≤ (a.filter (fun k => k ≠ 0)).sum :=
        List.single_le_sum (fun x _ => Nat.zero_le x) k hk
      _ = a.sum := hPsum
  have hTR : (0:ℝ) < (a.sum : ℝ) := Nat.cast_pos.2 hTpos
  have hshan : shannon a
      = ((a.filter (fun k => k ≠ 0)).map
          (fun k : ℕ => Real.negMulLog ((k : ℝ) / (a.sum : ℝ)))).sum := by
    unfold shannon
    rw [sum_map_filter_ne_zero (fun k : ℕ =>
      Real.negMulLog ((k : ℝ) / (a.sum : ℝ))) (by simp) a]
  have hbound : ((a.filter (fun k => k ≠ 0)).map
        (fun k : ℕ => Real.negMulLog ((k : ℝ) / (a.sum : ℝ)))).sum
      ≤ ((a.filter (fun k => k ≠ 0)).map
        (fun k : ℕ => 1/((richness a : ℕ) : ℝ) - (k:ℝ)/(a.sum:ℝ)
          + ((k:ℝ)/(a.sum:ℝ)) * Real.log ((richness a : ℕ) : ℝ))).sum := by
    refine List.sum_le_sum fun k hk => ?_
    have hk0 := hPpos k hk
    have hkpos : (0:ℝ) < (k:ℝ)/(a.sum:ℝ) := by positivity
    exact negMulLog_le_bound hkpos h
  have hshares : ((a.filter (fun k => k ≠ 0)).map
      (fun k : ℕ => (k:ℝ)/(a.sum:ℝ))).sum = 1 := by
    rw [sum_map_div, sum_map_cast, hPsum]
    exact div_self (ne_of_gt hTR)
  have hsplit := sum_map_affine (a.filter (fun k => k ≠ 0))
    (1/((richness a : ℕ) : ℝ)) (Real.log ((richness a : ℕ) : ℝ)) (a.sum : ℝ)
  have hlen : ((a.filter (fun k => k ≠ 0)).length : ℝ)
      = ((richness a : ℕ) : ℝ) := by
    unfold richness
    norm_num
  have hnR : (0:ℝ) < ((richness a : ℕ) : ℝ) := Nat.cast_pos.2 h
  rw [hshan]
  refine le_trans hbound ?_
  rw [hsplit, hshares, hlen]
  have hne : ((richness a : ℕ) : ℝ) ≠ 0 := ne_of_gt hnR
  field_simp

theorem evenness_nonneg (a : List ℕ) : 0 ≤ evenness a := by
  unfold evenness
  split
  · exact le_refl 0
  · rename_i hr
    have h2 : 2 ≤ richness a := by omega
    have hlog : 0 ≤ Real.log (richness a) := by
      refine Real.log_nonneg ?_
      exact_mod_cast Nat.one_le_iff_ne_zero.2 (by omega)
    exact div_nonneg (shannon_nonneg a) hlog

theorem evenness_le_one (a : List ℕ) : evenness a ≤ 1 := by
  unfold evenness
  split
  · exact zero_le_one
  · rename_i hr
    have h2 : 2 ≤ richness a := by omega
    have hlog : 0 < Real.log (richness a) := by
      refine Real.log_pos ?_
      exact_mod_cast h2.trans_lt' one_lt_two
    rw [div_le_one hlog]
    exact shannon_le_log_richness (by omega)

/-! ### Classification Join -/

theorem lookupCache_eq_none_iff (c : List (String × List String))
    (id : String) : lookupCache c id = none ↔ id ∉ attrKeys c := by
  unfold lookupCache
  rw [Option.map_eq_none', List.find?_eq_none, mem_attrKeys]
  constructor
  · rintro hall ⟨p, hp, hpk⟩
    exact absurd (by simp [hpk]) (hall p hp)
  · intro hnone p hp hpk
    exact hnone ⟨p, hp, by simpa using hpk⟩

theorem classify_fold_cache_monotone (classify : String → List String)
    (ids : List String) :
    ∀ (c : List (String × List String)) (lg : List String) (x : String),
    x ∈ attrKeys c →
    x ∈ attrKeys (ids.foldl (classifyStep classify) (c, lg)).1 := by
  induction ids with
  | nil => intro c lg x hx; exact hx
  | cons id0 rest ih =>
    intro c lg x hx
    rw [List.foldl_cons]
    unfold classifyStep
    cases hl : lookupCache c id0 with
    | some vs => exact ih c lg x hx
    | none =>
      refine ih _ _ x ?_
      show x ∈ attrKeys (c ++ [(id0, classify id0)])
      unfold attrKeys
      rw [List.map_append, List.mem_append]
      exact Or.inl hx

theorem classify_fold_coverage (classify : String → List String)
    (ids : List String) :
    ∀ (c : List (String × List String)) (lg : List String),
    ∀ id ∈ ids, id ∈ attrKeys (ids.foldl (classifyStep classify) (c, lg)).1 := by
  induction ids with
  | nil => intro c lg id hid; exact absurd hid (List.not_mem_nil id)
  | cons id0 rest ih =>
    intro c lg id hid
    rw [List.foldl_cons]
    unfold classifyStep
    rcases List.mem_cons.1 hid with rfl | hid'
    · cases hl : lookupCache c id with
      | some vs =>
        have hkey : id ∈ attrKeys c := by
          by_contra hno
          rw [← lookupCache_eq_none_iff] at hno
          rw [hl] at hno
          exact Option.noConfusion hno
        exact classify_fold_cache_monotone classify rest c lg id hkey
      | none =>
        refine classify_fold_cache_monotone classify rest _ _ id ?_
        show id ∈ attrKeys (c ++ [(id, classify id)])
        unfold attrKeys
        rw [List.map_append, List.mem_append]
        exact Or.inr (by simp)
    · cases hl : lookupCache c id0 with
      | some vs => exact ih c lg id hid'
      | none => exact ih _ _ id hid'

theorem classify_fold_log_sound (classify : String → List String)
    (ids : List String) :
    ∀ (c : List (String × List String)) (lg : List String),
    (∀ x ∈ lg, x ∈ attrKeys c) → lg.Nodup →
    (ids.foldl (classifyStep classify) (c, lg)).2.Nodup
      ∧ (∀ x ∈ (ids.foldl (classifyStep classify) (c, lg)).2,
          x ∈ attrKeys (ids.foldl (classifyStep classify) (c, lg)).1) := by
  induction ids with
  | nil => intro c lg hsub hnd; exact ⟨hnd, hsub⟩
  | cons id0 rest ih =>
    intro c lg hsub hnd
    rw [List.foldl_cons]
    unfold classifyStep
    cases hl : lookupCache c id0 with
    | some vs => exact ih c lg hsub hnd
    | none =>
      have hid0 : id0 ∉ attrKeys c := (lookupCache_eq_none_iff c id0).1 hl
      refine ih _ _ ?_ ?_
      · intro x hx
        rw [List.mem_append] at hx
        show x ∈ attrKeys (c ++ [(id0, classify id0)])
        unfold attrKeys
        rw [List.map_append, List.mem_append]
        rcases hx with hx | hx
        · exact Or.inl (hsub x hx)
        · rw [List.mem_singleton] at hx
          exact Or.inr (by simp [hx])
      · rw [List.nodup_append]
        refine ⟨hnd, List.nodup_singleton id0, ?_⟩
        intro x hx hx0
        rw [List.mem_singleton] at hx0
        exact hid0 (hx0 ▸ hsub x hx)

theorem classify_fold_log_origin (classify : String → List String)
    (ids : List String) :
    ∀ (c : List (String × List String)) (lg : List String),
    ∀ x ∈ (ids.foldl (classifyStep classify) (c, lg)).2,
      x ∈ lg ∨ (x ∈ ids ∧ x ∉ attrKeys c) := by
  induction ids with
  | nil => intro c lg x hx; exact Or.inl hx
  | cons id0 rest ih =>
    intro c lg x hx
    rw [List.foldl_cons] at hx
    unfold classifyStep at hx
    cases hl : lookupCache c id0 with
    | some vs =>
      rw [hl] at hx
      rcases ih c lg x hx with h | h
      · exact Or.inl h
      · exact Or.inr ⟨List.mem_cons_of_mem _ h.1, h.2⟩
    | none =>
      rw [hl] at hx
      have hid0 : id0 ∉ attrKeys c := (lookupCache_eq_none_iff c id0).1 hl
      rcases ih _ _ x hx with h | h
      · rw [List.mem_append] at h
        rcases h with h | h
        · exact Or.inl h
        · rw [List.mem_singleton] at h
          exact Or.inr ⟨h ▸ List.mem_cons_self _ _, h ▸ hid0⟩
      · refine Or.inr ⟨List.mem_cons_of_mem _ h.1, fun hc => h.2 ?_⟩
        show x ∈ attrKeys (c ++ [(id0, classify id0)])
        unfold attrKeys
        rw [List.map_append, List.mem_append]
        exact Or.inl hc

/-! ### Concrete example data -/

/-- Concrete dissimilarity table behind the spec scenario
`d(1,2)=0.2, d(1,3)=0.5, d(2,3)=0.3`, on compounds named by numbers. -/
def dTable (a b : ℕ) : ℚ :=
  if a = b then 0
  else if (a, b) = (1, 2) ∨ (a, b) = (2, 1) then 1/5
  else if (a, b) = (1, 3) ∨ (a, b) = (3, 1) then 1/2
  else if (a, b) = (2, 3) ∨ (a, b) = (3, 2) then 3/10
  else 1

/-- Symmetrization of `dTable`; a valid dissimilarity capability. -/
def dEx (a b : ℕ) : ℚ := (dTable a b + dTable b a) / 2

theorem dEx_symm (a b : ℕ) : dEx a b = dEx b a := by
  unfold dEx
  rw [add_comm]

theorem dEx_diag (a : ℕ) : dEx a a = 0 := by
  unfold dEx dTable
  rw [if_pos rfl]
  norm_num

theorem dEx_nonneg (a b : ℕ) : 0 ≤ dEx a b := by
  unfold dEx dTable
  split_ifs <;> norm_num

theorem dEx_1_2 : dEx 1 2 = 1/5 := by
  norm_num [dEx, dTable]

theorem dEx_1_3 : dEx 1 3 = 1/2 := by
  norm_num [dEx, dTable]

theorem dEx_2_3 : dEx 2 3 = 3/10 := by
  norm_num [dEx, dTable]

theorem FAD_scenario : FAD dEx [1, 2, 3] = 1 := by
  simp [FAD, dEx_1_2, dEx_1_3, dEx_2_3]
  norm_num

theorem MFAD_scenario : MFAD dEx [1, 2, 3] = 1/3 := by
  unfold MFAD
  norm_num [FAD_scenario]

/-- Concrete pathway classifier used as witness input. -/
def classOfEx (c : String) : List String :=
  if c = "x1" ∨ c = "x2" then ["A"] else if c = "x3" then ["B"] else []

/-- Witness record: compound X for Quercus robur, reported by wikidata as
`active`. -/
def rec1 : CompoundTaxonRecord :=
  { compound_identity := "SMILES1", raw_structure := "S1raw",
    taxon_identity := "Quercus robur",
    source_attributes := [("Standard_SMILES", ["SMILES1"]),
      ("InChIKey_simp", ["KEY1"]), ("assay_result", ["active"])],
    source_tags := ["wikidata"] }

/-- Witness record: the same compound-taxon pair, reported by knapsack as
`inactive`. -/
def rec2 : CompoundTaxonRecord :=
  { compound_identity := "SMILES1", raw_structure := "S1bis",
    taxon_identity := "Quercus robur",
    source_attributes := [("Standard_SMILES", ["SMILES1"]),
      ("InChIKey_simp", ["KEY1"]), ("assay_result", ["inactive"])],
    source_tags := ["knapsack"] }

/-- Witness record: one stereoisomer, distinct SMILES, shared InChIKey. -/
def rec3 : CompoundTaxonRecord :=
  { compound_identity := "SMILES-R", raw_structure := "rawR",
    taxon_identity := "Quercus robur",
    source_attributes := [("Standard_SMILES", ["SMILES-R"]),
      ("InChIKey_simp", ["KEY"])],
    source_tags := ["wikidata"] }

/-- Witness record: the other stereoisomer, distinct SMILES, shared
InChIKey. -/
def rec4 : CompoundTaxonRecord :=
  { compound_identity := "SMILES-S", raw_structure := "rawS",
    taxon_identity := "Quercus robur",
    source_attributes := [("Standard_SMILES", ["SMILES-S"]),
      ("InChIKey_simp", ["KEY"])],
    source_tags := ["knapsack"] }

/-- Witness record with an empty compound identity, to be discarded. -/
def badRec : CompoundTaxonRecord :=
  { compound_identity := "", raw_structure := "rawBad",
    taxon_identity := "Quercus robur",
    source_attributes := [("Standard_SMILES", [""])],
    source_tags := ["knapsack"] }

/-! ### Claim theorems -/

/-- C3: for every symmetric, non-negative dissimilarity `d` with
`d(c,c)=0`, `calculate_FAD_measures` returns `FAD(g)` equal to the sum of
`d` over all unordered pairs of distinct compounds of the group, and
`MFAD(g) = FAD(g) / |C_g|`; in particular for a group of 3 compounds with
`d(1,2)=0.2, d(1,3)=0.5, d(2,3)=0.3` it returns `FAD = 1` and
`MFAD = 1/3`. -/
theorem C3_FAD_pairwise_sum {α : Type} (d : α → α → ℚ) (x₀ : α)
    (C : List α)
    (hsym : ∀ a b, d a b = d b a) (hdiag : ∀ a, d a a = 0)
    (hnonneg : ∀ a b, 0 ≤ d a b) :
    (FAD d C = ∑ i ∈ Finset.range C.length, ∑ j ∈ Finset.range C.length,
        if i < j then d (C.getD i x₀) (C.getD j x₀) else 0)
    ∧ MFAD d C = FAD d C / (C.length : ℚ)
    ∧ FAD dEx [1, 2, 3] = 1
    ∧ MFAD dEx [1, 2, 3] = 1/3 :=
  ⟨FAD_eq_pair_sum d x₀ C, MFAD_eq_div d C, FAD_scenario, MFAD_scenario⟩

/-- Witness for C3 at the concrete dissimilarity `dEx` and the spec's
3-compound scenario group. -/
theorem C3_witness :
    (FAD dEx [1, 2, 3]
        = ∑ i ∈ Finset.range ([1, 2, 3] : List ℕ).length,
          ∑ j ∈ Finset.range ([1, 2, 3] : List ℕ).length,
          if i < j then dEx (([1, 2, 3] : List ℕ).getD i 0)
            (([1, 2, 3] : List ℕ).getD j 0) else 0)
    ∧ MFAD dEx [1, 2, 3]
        = FAD dEx [1, 2, 3] / ((([1, 2, 3] : List ℕ).length : ℚ))
    ∧ FAD dEx [1, 2, 3] = 1
    ∧ MFAD dEx [1, 2, 3] = 1/3 :=
  C3_FAD_pairwise_sum dEx 0 [1, 2, 3] dEx_symm dEx_diag dEx_nonneg

/-- C9: extending a group by a compound at strictly positive dissimilarity
to every existing member never decreases the FAD value. -/
theorem C9_FAD_monotone {α : Type} (d : α → α → ℚ) (c : α)
    (C : List α) (hnotin : c ∉ C) (hpos : ∀ x ∈ C, 0 < d c x) :
    FAD d C ≤ FAD d (c :: C) := by
  have hstep : FAD d (c :: C) = (C.map (d c)).sum + FAD d C := rfl
  have hsum : 0 ≤ (C.map (d c)).sum := by
    refine List.sum_nonneg fun x hx => ?_
    rw [List.mem_map] at hx
    obtain ⟨y, hy, rfl⟩ := hx
    exact le_of_lt (hpos y hy)
  rw [hstep]
  linarith

/-- Witness for C9: adding compound 1 to the group `{2, 3}` under
`dEx`. -/
theorem C9_witness :
    ((1 : ℕ) ∉ ([2, 3] : List ℕ)
      ∧ ∀ x ∈ ([2, 3] : List ℕ), 0 < dEx 1 x)
    ∧ FAD dEx [2, 3] ≤ FAD dEx (1 :: [2, 3]) :=
  ⟨⟨by decide, by
      intro x hx
      rcases List.mem_cons.1 hx with rfl | hx
      · rw [dEx_1_2]; norm_num
      · rw [List.mem_singleton.1 hx, dEx_1_3]; norm_num⟩,
    C9_FAD_monotone dEx 1 [2, 3] (by decide) (by
      intro x hx
      rcases List.mem_cons.1 hx with rfl | hx
      · rw [dEx_1_2]; norm_num
      · rw [List.mem_singleton.1 hx, dEx_1_3]; norm_num)⟩

/-- C4: a group with at most one compound has `FAD = MFAD = 0` (defined
values), richness 0 forces `Shannon = evenness = 0`, and a group with no
compounds still appears in the `calculate_FAD_measures` output with the
degenerate metric values. -/
theorem C4_degenerate_groups {α : Type} (d : α → α → ℚ) (C : List α)
    (hC : C.length ≤ 1) (a : List ℕ) (ha : richness a = 0)
    (groups : List (String × List α)) :
    FAD d C = 0 ∧ MFAD d C = 0 ∧ shannon a = 0 ∧ evenness a = 0
    ∧ ∀ g ∈ groups, g.2 = [] →
        (g.1, (0 : ℚ), (0 : ℚ)) ∈ calculate_FAD_measures d groups := by
  refine ⟨?_, ?_, shannon_of_richness_zero ha, ?_, ?_⟩
  · match C, hC with
    | [], _ => rfl
    | [c], _ => exact FAD_singleton d c
  · unfold MFAD
    rw [if_pos hC]
  · unfold evenness
    rw [if_pos (by omega)]
  · intro g hg hgnil
    unfold calculate_FAD_measures
    rw [List.mem_map]
    exact ⟨g, hg, by simp [hgnil, FAD, MFAD]⟩

/-- Witness for C4 at a singleton group, an all-zero abundance vector and
a compound-free group list. -/
theorem C4_witness :
    (([1] : List ℕ).length ≤ 1 ∧ richness [0, 0] = 0)
    ∧ (FAD dEx [1] = 0 ∧ MFAD dEx [1] = 0 ∧ shannon [0, 0] = 0
      ∧ evenness [0, 0] = 0
      ∧ ∀ g ∈ ([("g", [])] : List (String × List ℕ)), g.2 = [] →
          (g.1, (0 : ℚ), (0 : ℚ)) ∈ calculate_FAD_measures dEx [("g", [])]) :=
  ⟨⟨by decide, by decide⟩,
    C4_degenerate_groups dEx [1] (by decide) [0, 0] (by decide)
      [("g", [])]⟩

/-- C7: every group row produced by `get_pathway_based_diversity_measures`
with positive richness has `0 ≤ Shannon ≤ ln(richness)` and evenness in
`[0, 1]`, evenness being 0 whenever richness ≤ 1. -/
theorem C7_shannon_evenness_bounds (classOf : String → List String)
    (vocab : List String) (groups : List (String × List String))
    (row : String × ℕ × ℝ × ℝ)
    (hrow : row ∈ get_pathway_based_diversity_measures classOf vocab groups)
    (hrich : 0 < row.2.1) :
    0 ≤ row.2.2.1 ∧ row.2.2.1 ≤ Real.log (row.2.1)
    ∧ 0 ≤ row.2.2.2 ∧ row.2.2.2 ≤ 1
    ∧ (row.2.1 ≤ 1 → row.2.2.2 = 0) := by
  unfold get_pathway_based_diversity_measures at hrow
  rw [List.mem_map] at hrow
  obtain ⟨g, hg, rfl⟩ := hrow
  refine ⟨shannon_nonneg _, shannon_le_log_richness hrich,
    evenness_nonneg _, evenness_le_one _, ?_⟩
  intro hle
  show evenness (abundanceVector classOf vocab g.2) = 0
  unfold evenness
  rw [if_pos hle]

/-- Witness for C7 at a concrete classifier, vocabulary and group. -/
theorem C7_witness :
    (("g", richness (abundanceVector classOfEx ["A", "B"]
        ["x1", "x2", "x3", "x4"]),
      shannon (abundanceVector classOfEx ["A", "B"] ["x1", "x2", "x3", "x4"]),
      evenness (abundanceVector classOfEx ["A", "B"] ["x1", "x2", "x3", "x4"]))
        ∈ get_pathway_based_diversity_measures classOfEx ["A", "B"]
          [("g", ["x1", "x2", "x3", "x4"])]
      ∧ 0 < richness (abundanceVector classOfEx ["A", "B"]
          ["x1", "x2", "x3", "x4"]))
    ∧ (0 ≤ shannon (abundanceVector classOfEx ["A", "B"]
        ["x1", "x2", "x3", "x4"])
      ∧ shannon (abundanceVector classOfEx ["A", "B"] ["x1", "x2", "x3", "x4"])
        ≤ Real.log (richness (abundanceVector classOfEx ["A", "B"]
          ["x1", "x2", "x3", "x4"]))
      ∧ 0 ≤ evenness (abundanceVector classOfEx ["A", "B"]
          ["x1", "x2", "x3", "x4"])
      ∧ evenness (abundanceVector classOfEx ["A", "B"]
          ["x1", "x2", "x3", "x4"]) ≤ 1
      ∧ (richness (abundanceVector classOfEx ["A", "B"]
          ["x1", "x2", "x3", "x4"]) ≤ 1 →
        evenness (abundanceVector classOfEx ["A", "B"]
          ["x1", "x2", "x3", "x4"]) = 0)) :=
  ⟨⟨List.mem_map.2 ⟨("g", ["x1", "x2", "x3", "x4"]), by simp, rfl⟩,
      by decide⟩,
    C7_shannon_evenness_bounds classOfEx ["A", "B"]
      [("g", ["x1", "x2", "x3", "x4"])]
      ("g", richness (abundanceVector classOfEx ["A", "B"]
          ["x1", "x2", "x3", "x4"]),
        shannon (abundanceVector classOfEx ["A", "B"] ["x1", "x2", "x3", "x4"]),
        evenness (abundanceVector classOfEx ["A", "B"]
          ["x1", "x2", "x3", "x4"]))
      (List.mem_map.2 ⟨("g", ["x1", "x2", "x3", "x4"]), by simp, rfl⟩)
      (by decide)⟩

/-- C1: for every input record set and every bucket key preserved by the
record merge, no two records of the deduplicated `tidy_final_dataset`
output share the same key; with the canonical
`(compound_identity, taxon_group_key)` key this is the spec's no-duplicate
invariant. -/
theorem C1_dedup_no_duplicate_keys {κ : Type} [DecidableEq κ]
    (key : CompoundTaxonRecord → κ)
    (hkey : ∀ a b, key a = key b → key (merge1 a b) = key a)
    (l : List CompoundTaxonRecord) :
    List.Pairwise (fun a b => key a ≠ key b) (tidy_final_dataset key l).1 := by
  have hnd : (((tidy_final_dataset key l).1).map key).Nodup := by
    show ((dedupRecords key
      (l.filter (fun r => isValidRecord r))).map key).Nodup
    rw [dedupRecords_map_key key hkey]
    exact List.nodup_dedup _
  exact List.pairwise_map.1 hnd

/-- Witness for C1 at the canonical record key and a two-record input
sharing one `(compound_identity, taxon_group_key)` pair. -/
theorem C1_witness :
    (∀ a b, recordKey a = recordKey b → recordKey (merge1 a b) = recordKey a)
    ∧ List.Pairwise (fun a b => recordKey a ≠ recordKey b)
        (tidy_final_dataset recordKey [rec1, rec2]).1 :=
  ⟨fun _ _ _ => rfl,
    C1_dedup_no_duplicate_keys recordKey (fun _ _ _ => rfl) [rec1, rec2]⟩

/-- C6: deduplicating the deduplicated output again returns it unchanged:
the `tidy_final_dataset` output is a fixed point of the Deduplication
Engine. -/
theorem C6_dedup_idempotent {κ : Type} [DecidableEq κ]
    (key : CompoundTaxonRecord → κ)
    (hkey : ∀ a b, key a = key b → key (merge1 a b) = key a)
    (l : List CompoundTaxonRecord) :
    (tidy_final_dataset key (tidy_final_dataset key l).1).1
      = (tidy_final_dataset key l).1 := by
  show dedupRecords key
      ((dedupRecords key (l.filter (fun r => isValidRecord r))).filter
        (fun r => isValidRecord r))
    = dedupRecords key (l.filter (fun r => isValidRecord r))
  rw [List.filter_eq_self.2 (mem_dedupRecords_valid key l)]
  exact dedupRecords_idem key hkey (l.filter (fun r => isValidRecord r))

/-- Witness for C6 at the canonical record key and a two-record input. -/
theorem C6_witness :
    (∀ a b, recordKey a = recordKey b → recordKey (merge1 a b) = recordKey a)
    ∧ (tidy_final_dataset recordKey
        (tidy_final_dataset recordKey [rec1, rec2]).1).1
      = (tidy_final_dataset recordKey [rec1, rec2]).1 :=
  ⟨fun _ _ _ => rfl,
    C6_dedup_idempotent recordKey (fun _ _ _ => rfl) [rec1, rec2]⟩

/-- C8: every record of the deduplicated output has a non-empty compound
and taxon identity, and every record with an empty identity is excluded
and accounted for in the discard report instead of being merged under an
empty key. -/
theorem C8_empty_identity_excluded {κ : Type} [DecidableEq κ]
    (key : CompoundTaxonRecord → κ) (l : List CompoundTaxonRecord) :
    (∀ r ∈ (tidy_final_dataset key l).1,
        r.compound_identity ≠ "" ∧ r.taxon_identity ≠ "")
    ∧ (∀ r ∈ l, (r.compound_identity = "" ∨ r.taxon_identity = "") →
        r ∈ (tidy_final_dataset key l).2) := by
  constructor
  · intro r hr
    have hv := mem_dedupRecords_valid key l r hr
    unfold isValidRecord at hv
    rw [Bool.and_eq_true, decide_eq_true_eq, decide_eq_true_eq] at hv
    exact hv
  · intro r hr hbad
    show r ∈ l.filter (fun r => !(isValidRecord r))
    rw [List.mem_filter]
    refine ⟨hr, ?_⟩
    rcases hbad with h | h <;> simp [isValidRecord, h]

/-- Witness for C8 at an input containing a record with an empty compound
identity. -/
theorem C8_witness :
    (badRec ∈ ([rec1, badRec] : List CompoundTaxonRecord)
      ∧ badRec.compound_identity = "")
    ∧ badRec ∈ (tidy_final_dataset recordKey [rec1, badRec]).2 :=
  ⟨⟨by decide, by decide⟩,
    (C8_empty_identity_excluded recordKey [rec1, badRec]).2 badRec
      (by decide) (Or.inl (by decide))⟩

/-- C10: the deduplication key column is caller-supplied, and there is an
input table for which keying by `Standard_SMILES` and keying by
`InChIKey_simp` produce outputs with different record sets: stereoisomers
collapse under the InChIKey but stay distinct under the SMILES. -/
theorem C10_compound_id_column_parameter :
    (tidy_final_dataset (columnKey "Standard_SMILES") [rec3, rec4]).1.length
      = 2
    ∧ (tidy_final_dataset (columnKey "InChIKey_simp") [rec3, rec4]).1.length
      = 1 := by
  constructor <;> decide

/-- C5: the Classification Join covers every compound identity of the
record set, performs at most one external lookup per distinct identity
(the lookup log has no duplicates), looks up only identities absent from
the initial cache (the cache is consulted first), and preserves cached
entries (results are written back). -/
theorem C5_classification_join_single_lookup (classify : String → List String)
    (cache0 : List (String × List String)) (ids : List String) :
    (∀ id ∈ ids,
        id ∈ attrKeys (get_npclassifier_classes_from_df classify cache0 ids).1)
    ∧ (get_npclassifier_classes_from_df classify cache0 ids).2.Nodup
    ∧ (∀ x ∈ (get_npclassifier_classes_from_df classify cache0 ids).2,
        x ∈ ids ∧ x ∉ attrKeys cache0)
    ∧ (∀ x ∈ attrKeys cache0,
        x ∈ attrKeys (get_npclassifier_classes_from_df classify cache0 ids).1)
    := by
  refine ⟨?_, ?_, ?_, ?_⟩
  · intro id hid
    exact classify_fold_coverage classify ids cache0 [] id hid
  · exact (classify_fold_log_sound classify ids cache0 []
      (fun x hx => absurd hx (List.not_mem_nil x)) List.nodup_nil).1
  · intro x hx
    rcases classify_fold_log_origin classify ids cache0 [] x hx with h | h
    · exact absurd h (List.not_mem_nil x)
    · exact h
  · intro x hx
    exact classify_fold_cache_monotone classify ids cache0 [] x hx

/-- Witness for C5 at a concrete classifier, a one-entry initial cache and
a repeated identity list. -/
theorem C5_witness :
    (("x2" : String) ∈ (["x1", "x2", "x2"] : List String))
    ∧ ("x2" : String) ∈ attrKeys (get_npclassifier_classes_from_df classOfEx
        [("x1", ["A"])] ["x1", "x2", "x2"]).1 :=
  ⟨by decide,
    (C5_classification_join_single_lookup classOfEx [("x1", ["A"])]
      ["x1", "x2", "x2"]).1 "x2" (by decide)⟩

/-- C2: the single record merged from a bucket retains every observed
attribute value of every contributing record (an attribute present in only
one record is kept as-is, conflicting values are all retained in an
ordered duplicate-free list extending the first record's values in merge
order) and records the contributing source tags, duplicate-free. -/
theorem C2_bucket_merge_preserves_evidence (r : CompoundTaxonRecord)
    (rs : List CompoundTaxonRecord)
    (hbucket : ∀ b ∈ r :: rs, recordKey b = recordKey r)
    (hkeys : ∀ b ∈ r :: rs, (attrKeys b.source_attributes).Nodup)
    (hvals : ∀ b ∈ r :: rs, ∀ p ∈ b.source_attributes, p.2.Nodup)
    (htags : ∀ b ∈ r :: rs, b.source_tags.Nodup) :
    (∀ k v, v ∈ attrValues (mergeBucket (r :: rs)).source_attributes k
      ↔ ∃ b ∈ r :: rs, v ∈ attrValues b.source_attributes k)
    ∧ (∀ k, (attrValues (mergeBucket (r :: rs)).source_attributes k).Nodup)
    ∧ (∀ k b, b ∈ r :: rs →
        (∀ b', b' ∈ r :: rs → b' ≠ b → k ∉ attrKeys b'.source_attributes) →
        attrValues (mergeBucket (r :: rs)).source_attributes k
          = attrValues b.source_attributes k)
    ∧ (∀ k, ∃ zs, attrValues (mergeBucket (r :: rs)).source_attributes k
        = attrValues r.source_attributes k ++ zs)
    ∧ (∀ t, t ∈ (mergeBucket (r :: rs)).source_tags
        ↔ ∃ b ∈ r :: rs, t ∈ b.source_tags)
    ∧ (mergeBucket (r :: rs)).source_tags.Nodup := by
  have hrk : (attrKeys r.source_attributes).Nodup :=
    hkeys r (List.mem_cons_self _ _)
  have hM : mergeBucket (r :: rs) = rs.foldl merge1 r := rfl
  refine ⟨?_, ?_, ?_, ?_, ?_, ?_⟩
  · intro k v
    rw [hM, foldl_merge1_mem_attrValues rs r k v hrk]
    constructor
    · rintro (h | ⟨b, hb, h⟩)
      · exact ⟨r, List.mem_cons_self _ _, h⟩
      · exact ⟨b, List.mem_cons_of_mem _ hb, h⟩
    · rintro ⟨b, hb, h⟩
      rcases List.mem_cons.1 hb with rfl | hb'
      · exact Or.inl h
      · exact Or.inr ⟨b, hb', h⟩
  · intro k
    rw [hM]
    refine nodup_attrValues (foldl_merge1_keys_nodup rs r hrk) ?_
    exact foldl_merge1_values_nodup rs r
      (hvals r (List.mem_cons_self _ _))
      (fun b hb => hvals b (List.mem_cons_of_mem _ hb))
  · intro k b hb huniq
    rw [hM]
    by_cases hrb : r = b
    · subst hrb
      exact foldl_merge1_value_stable rs r r k hrk hrk rfl
        (fun x hx hxb => huniq x (List.mem_cons_of_mem _ hx) hxb)
    · have hbrs : b ∈ rs := by
        rcases List.mem_cons.1 hb with h | h
        · exact absurd h.symm hrb
        · exact h
      have hrnok : k ∉ attrKeys r.source_attributes :=
        huniq r (List.mem_cons_self _ _) hrb
      exact foldl_merge1_unique_holder rs r b k hrk
        (fun x hx => hkeys x (List.mem_cons_of_mem _ hx)) hbrs hrnok
        (fun x hx hxb => huniq x (List.mem_cons_of_mem _ hx) hxb)
  · intro k
    rw [hM]
    exact foldl_merge1_extend rs r k hrk
  · intro t
    rw [hM, foldl_merge1_tags_mem rs r t]
    constructor
    · rintro (h | ⟨b, hb, h⟩)
      · exact ⟨r, List.mem_cons_self _ _, h⟩
      · exact ⟨b, List.mem_cons_of_mem _ hb, h⟩
    · rintro ⟨b, hb, h⟩
      rcases List.mem_cons.1 hb with rfl | hb'
      · exact Or.inl h
      · exact Or.inr ⟨b, hb', h⟩
  · rw [hM]
    exact foldl_merge1_tags_nodup rs r (htags r (List.mem_cons_self _ _))

/-- Witness for C2 at the spec scenario bucket: two sources report the
same compound-taxon pair with conflicting `assay_result` values. -/
theorem C2_witness :
    ((∀ b ∈ rec1 :: [rec2], recordKey b = recordKey rec1)
      ∧ (∀ b ∈ rec1 :: [rec2], (attrKeys b.source_attributes).Nodup)
      ∧ (∀ b ∈ rec1 :: [rec2], ∀ p ∈ b.source_attributes, p.2.Nodup)
      ∧ (∀ b ∈ rec1 :: [rec2], b.source_tags.Nodup))
    ∧ ((∀ k v, v ∈ attrValues (mergeBucket (rec1 :: [rec2])).source_attributes k
        ↔ ∃ b ∈ rec1 :: [rec2], v ∈ attrValues b.source_attributes k)
      ∧ (∀ k,
        (attrValues (mergeBucket (rec1 :: [rec2])).source_attributes k).Nodup)
      ∧ (∀ k b, b ∈ rec1 :: [rec2] →
          (∀ b', b' ∈ rec1 :: [rec2] → b' ≠ b →
            k ∉ attrKeys b'.source_attributes) →
          attrValues (mergeBucket (rec1 :: [rec2])).source_attributes k
            = attrValues b.source_attributes k)
      ∧ (∀ k, ∃ zs,
          attrValues (mergeBucket (rec1 :: [rec2])).source_attributes k
            = attrValues rec1.source_attributes k ++ zs)
      ∧ (∀ t, t ∈ (mergeBucket (rec1 :: [rec2])).source_tags
          ↔ ∃ b ∈ rec1 :: [rec2], t ∈ b.source_tags)
      ∧ (mergeBucket (rec1 :: [rec2])).source_tags.Nodup) :=
  ⟨⟨by decide, by decide, by decide, by decide⟩,
    C2_bucket_merge_preserves_evidence rec1 [rec2] (by decide) (by decide)
      (by decide) (by decide)⟩
